import Mathlib

/-!
# groups-sync: vault reference substitution

A shallow embedding of the three command line tools of the repository
(`ConfigMapFromVault`, `VaultReplaceInline`, `SecretFromVault`) and the
properties of their reference matcher, secret resolver, line substitution
loop, multi-file assembler and key selection.

Go strings are modelled as lists of characters (`Str`).  The operating
system, the scanner and the Vault server are modelled by the values they
hand back to the program.
-/

namespace GroupsSync

/-- Go strings, as character lists. -/
abbrev Str := List Char

/-- Go `error` values, identified with their message. -/
abbrev Error := List Char

/-! ## The pattern `vault:\/\/(.+)@(\w+)` -/

/-- The character class `\w` of Go regular expressions: `[0-9A-Za-z_]`. -/
def isWord (c : Char) : Bool :=
  ('0' ≤ c && c ≤ '9') || ('A' ≤ c && c ≤ 'Z') || ('a' ≤ c && c ≤ 'z') || c == '_'

/-- The class `.` of Go regular expressions (no `s` flag): any character but the newline. -/
def isDot (c : Char) : Bool := c != '\n'

/-- The literal part of the pattern, `vault:\/\/`. -/
def vaultLit : Str := ['v', 'a', 'u', 'l', 't', ':', '/', '/']

/-- One match of `regexVault`: the text before the match, capture group 1,
capture group 2 and the text after the match. The matched span is
`vaultLit ++ path ++ '@' :: key`. -/
structure Submatch where
  before : Str
  path : Str
  key : Str
  after : Str
deriving DecidableEq, Repr

/-- The text matched by the whole pattern (capture group 0). -/
def Submatch.whole (m : Submatch) : Str := vaultLit ++ m.path ++ '@' :: m.key

/-- The final `(\w+)` of the pattern: greedy, nothing follows it, so it takes
the longest run of word characters, which must not be empty. -/
def matchKey (s : Str) : Option (Str × Str) :=
  if s.takeWhile isWord = [] then none else some (s.takeWhile isWord, s.dropWhile isWord)

/-- The part `.+@(\w+)` after `.+` has taken at least one character: the greedy
`+` first tries to take one more character and only when the rest of the
pattern cannot match after that does it stop and try `@(\w+)` here. -/
def matchDots : Str → Option (Str × Str × Str)
  | [] => none
  | c :: cs =>
    match (if isDot c then matchDots cs else none) with
    | some (p, k, r) => some (c :: p, k, r)
    | none =>
      if c = '@' then
        match matchKey cs with
        | some (k, r) => some ([], k, r)
        | none => none
      else none

/-- The part `(.+)@(\w+)` of the pattern: `.+` takes a first character, then
continues as `matchDots`. -/
def matchPath : Str → Option (Str × Str × Str)
  | [] => none
  | c :: cs =>
    if isDot c then
      match matchDots cs with
      | some (p, k, r) => some (c :: p, k, r)
      | none => none
    else none

/-- Removes a literal prefix. -/
def stripLit : Str → Str → Option Str
  | [], s => some s
  | _ :: _, [] => none
  | a :: as, c :: cs => if a = c then stripLit as cs else none

/-- The whole pattern tried at the start of `s`. -/
def matchHere (s : Str) : Option (Str × Str × Str) :=
  match stripLit vaultLit s with
  | some t => matchPath t
  | none => none

/-- Leftmost match of the pattern in `s` (`regexVault.FindStringSubmatch`):
the start positions are tried from left to right. -/
def findSubmatch : Str → Option Submatch
  | [] => none
  | c :: cs =>
    match matchHere (c :: cs) with
    | some (p, k, r) => some ⟨[], p, k, r⟩
    | none =>
      match findSubmatch cs with
      | some m => some { m with before := c :: m.before }
      | none => none

/-- The `regexVault.MatchString` test. -/
def matchString (s : Str) : Bool := (findSubmatch s).isSome

/-! ## `regexVault.ReplaceAllString` -/

/-- The parsing loop of Go `regexp.extract` that reads `name` as a decimal
number: `-1` as soon as a byte is not an ASCII digit or the number has
reached `1e8`. -/
def parseNum : Int → Str → Int
  | num, [] => num
  | num, c :: cs =>
    if c < '0' || '9' < c || num ≥ 100000000 then -1
    else parseNum (num * 10 + ((c.toNat : Int) - ('0'.toNat : Int))) cs

/-- The characters of a name after `$` in a replacement template: a Unicode
letter or digit (`isLetterOrDigit`, the tables of Go package `unicode`) or an
underscore. -/
def isNameRune (isLetterOrDigit : Char → Bool) (c : Char) : Bool :=
  isLetterOrDigit c || c == '_'

/-- Go `regexp.extract`: the `name` or `{name}` at the head of `str` (the `$`
is already removed), its value as a number (`-1` when it is not one) and the
rest of the template; `none` stands for `ok = false`. -/
def extract (isLetterOrDigit : Char → Bool) (str : Str) : Option (Str × Int × Str) :=
  match str with
  | [] => none
  | c0 :: tl =>
    let brace := c0 == '{'
    let str1 := if brace then tl else str
    let name := str1.takeWhile (isNameRune isLetterOrDigit)
    let rest := str1.dropWhile (isNameRune isLetterOrDigit)
    if name = [] then none
    else
      let num0 := parseNum 0 name
      let num := if name.head? = some '0' && decide (name.length > 1) then -1 else num0
      if brace then
        match rest with
        | '}' :: rest1 => some (name, num, rest1)
        | _ => none
      else some (name, num, rest)

/-- The text of capture group `num` of a match of `regexVault`, which has the
groups 0 (whole match), 1 (path) and 2 (key); nothing for any other number. -/
def Submatch.group (m : Submatch) (num : Int) : Str :=
  if num = 0 then m.whole
  else if num = 1 then m.path
  else if num = 2 then m.key
  else []

/-- Go `strings.Cut(template, "$")`: the text before the first `$` and the text
after it, `none` when there is no `$`. -/
def cutDollar : Str → Option (Str × Str)
  | [] => none
  | c :: cs =>
    if c = '$' then some ([], cs)
    else
      match cutDollar cs with
      | some (b, a) => some (c :: b, a)
      | none => none

/-- The loop of Go `Regexp.expand` with `dst` the text built so far. Every
turn removes at least the `$` it found from `template`; `none` only when the
fuel ends before the template does. The pattern has no named group, so a name
that is not a number appends nothing. -/
def expandLoop (isLetterOrDigit : Char → Bool) (m : Submatch) : Nat → Str → Str → Option Str
  | 0, _, _ => none
  | n + 1, dst, template =>
    match cutDollar template with
    | none => some (dst ++ template)
    | some (before, after) =>
      match after with
      | '$' :: after1 => expandLoop isLetterOrDigit m n (dst ++ before ++ ['$']) after1
      | _ =>
        match extract isLetterOrDigit after with
        | none => expandLoop isLetterOrDigit m n (dst ++ before ++ ['$']) after
        | some (_, num, rest) =>
          expandLoop isLetterOrDigit m n
            (dst ++ before ++ (if num ≥ 0 then m.group num else [])) rest

/-- Go `Regexp.expand` of the replacement `template` for the match `m`. -/
def expand (isLetterOrDigit : Char → Bool) (template : Str) (m : Submatch) : Str :=
  (expandLoop isLetterOrDigit m (template.length + 1) [] template).getD []

/-- The loop of Go `Regexp.replaceAll` for `regexVault`, whose matches are never
empty: the text before the match, the replacement, then the search goes on
after the match. `none` only when the fuel ends first. -/
def replaceAllLoop (repl : Submatch → Str) : Nat → Str → Option Str
  | 0, _ => none
  | n + 1, src =>
    match findSubmatch src with
    | none => some src
    | some m =>
      match replaceAllLoop repl n m.after with
      | some t => some (m.before ++ repl m ++ t)
      | none => none

/-- Go `regexVault.ReplaceAllString(src, repl)`: every match is replaced by the
expansion of `repl`, in which `$` signs are interpreted. -/
def replaceAllString (isLetterOrDigit : Char → Bool) (src repl : Str) : Str :=
  (replaceAllLoop (expand isLetterOrDigit repl) (src.length + 1) src).getD []

/-! ## The Vault server and `getSecret` -/

/-- A Go `interface{}` holding a decoded JSON value: `nil`, a string, a
`map[string]interface{}`, or a value of another dynamic type (number, boolean,
array). -/
inductive Val where
  | null
  | str (s : Str)
  | dict (entries : List (Str × Val))
  | other

/-- An `api.Secret`, of which the programs read the field `Data`. -/
structure Secret where
  data : List (Str × Val)

/-- The Vault server as the programs see it: the error of `api.NewClient`, if
any, and the pair `client.Logical().Read` returns for a path. -/
structure Vault where
  clientErr : Option Error
  read : Str → Option Secret × Option Error

/-- A Go call either returns a value or panics. -/
inductive Ret (α : Type) where
  | val (a : α)
  | panic
deriving DecidableEq, Repr

/-- Indexing a Go map, `m[k]`: the zero value `nil` when the key is absent. -/
def mapIndex : List (Str × Val) → Str → Val
  | [], _ => Val.null
  | (k, v) :: rest, key => if k = key then v else mapIndex rest key

/-- The loop `for k, v := range d` of `getSecret`, then the final error. The
type assertion `v.(string)` panics on a value that is not a string. -/
def getSecretRange (key : Str) : List (Str × Val) → Ret (Str × Option Error)
  | [] => .val ([], some ("Key \"".toList ++ key ++ "\" not found".toList))
  | (k, v) :: rest =>
    if k = key then
      match v with
      | .str s => .val (s, none)
      | _ => .panic
    else getSecretRange key rest

/-- The function `getSecret`, the same text in `ConfigMapFromVault.go` and in
`VaultReplaceInline.go`. The type assertion `v.(map[string]interface{})` panics
on a value that is not a map. -/
def getSecret (V : Vault) (pathSecret key : Str) : Ret (Str × Option Error) :=
  match V.clientErr with
  | some err => .val ([], some err)
  | none =>
    match V.read pathSecret with
    | (_, some err) => .val ([], some err)
    | (none, none) =>
      .val ([], some ("Secret \"".toList ++ pathSecret ++ "\" not found".toList))
    | (some vaultData, none) =>
      match mapIndex vaultData.data "data".toList with
      | .null => .val ([], some "Data not found".toList)
      | .dict d => getSecretRange key d
      | _ => .panic

/-! ## Files and `checkIfFileSize` -/

/-- The `os.FileInfo` of a file: `IsDir()` and `Size()`. -/
structure FileInfo where
  isDir : Bool
  size : Nat
deriving DecidableEq, Repr

/-- An error of package `os`: its message and what `os.IsNotExist` says of it. -/
structure OsError where
  msg : Error
  notExist : Bool
deriving DecidableEq, Repr

/-- What the operating system gives the program for one file name: the pair
returned by `os.Stat`, the error of `os.OpenFile` if any, the lines the
`bufio.Scanner` delivers one after the other and the error `sc.Err()` reports
when the scan stops. -/
structure File where
  name : Str
  info : Option FileInfo
  statErr : Option OsError
  openErr : Option Error
  lines : List Str
  scanErr : Option Error

/-- Go `os.IsNotExist(err)`, false on the `nil` error. -/
def isNotExist : Option OsError → Bool
  | some e => e.notExist
  | none => false

/-- The function `checkIfFileSize`, the same text in both programs. Calling
`info.IsDir()` on the `nil` file information panics. -/
def checkIfFileSize (f : File) : Ret (Nat × Option Error) :=
  if isNotExist f.statErr then
    .val (0, f.statErr.map OsError.msg)
  else
    match f.info with
    | none => .panic
    | some info =>
      if info.isDir then
        .val (0, some ("[ERROR] File \"".toList ++ f.name ++ "\" is a directory".toList))
      else .val (info.size, none)

/-! ## `replaceFile` -/

/-- UTF-8 length of a character. -/
def charLen (c : Char) : Nat :=
  if c.toNat < 128 then 1 else if c.toNat < 2048 then 2 else if c.toNat < 65536 then 3 else 4

/-- Go `len(s)`: the number of bytes of the string. -/
def goLen : Str → Nat
  | [] => 0
  | c :: cs => charLen c + goLen cs

/-- The result of a run of `replaceFile` or `replaceFiles`: what the call
returns and the `getSecret` calls made, in order, as (path, key). -/
structure Run where
  out : Ret (Str × Option Error)
  calls : List (Str × Str)
deriving DecidableEq, Repr

/-- How the scan loop ends: by a `return` inside the loop or by running out of
lines with the text accumulated in `output`. -/
inductive LoopEnd where
  | returned (r : Ret (Str × Option Error))
  | finished (output : Str)
deriving DecidableEq, Repr

/-- The loop `for sc.Scan() { ... }` of `replaceFile`, the same text in both
programs. `regexVault.MatchString` holds exactly when `FindStringSubmatch`
finds a match, whose groups are `res[1]` and `res[2]`. -/
def scanLoop (isLetterOrDigit : Char → Bool) (V : Vault) :
    List Str → Str → LoopEnd × List (Str × Str)
  | [], output => (.finished output, [])
  | line :: rest, output =>
    match findSubmatch line with
    | some res =>
      match getSecret V res.path res.key with
      | .panic => (.returned .panic, [(res.path, res.key)])
      | .val (_, some err) => (.returned (.val ([], some err)), [(res.path, res.key)])
      | .val (secret, none) =>
        let r := scanLoop isLetterOrDigit V rest
          (output ++ replaceAllString isLetterOrDigit line secret ++ ['\n'])
        (r.1, (res.path, res.key) :: r.2)
    | none => scanLoop isLetterOrDigit V rest (output ++ line ++ ['\n'])

/-- The part of `replaceFile` both programs share; `strip` is the final
`if len(output) > ... { output = output[:len(output)-1] }`. -/
def replaceFileWith (strip : Str → Str) (isLetterOrDigit : Char → Bool) (V : Vault)
    (f : File) : Run :=
  match checkIfFileSize f with
  | .panic => ⟨.panic, []⟩
  | .val (_, some err) => ⟨.val ([], some ("File error: ".toList ++ err)), []⟩
  | .val (fileSize, none) =>
    if fileSize = 0 then ⟨.val ([], none), []⟩
    else
      match f.openErr with
      | some err => ⟨.val ([], some ("Open file error: ".toList ++ err)), []⟩
      | none =>
        match scanLoop isLetterOrDigit V f.lines [] with
        | (.returned r, calls) => ⟨r, calls⟩
        | (.finished output, calls) =>
          match f.scanErr with
          | some err => ⟨.val ([], some ("Scan file error: ".toList ++ err)), calls⟩
          | none => ⟨.val (strip output, none), calls⟩

namespace ConfigMapFromVault

/-- The end of `replaceFile` in `ConfigMapFromVault.go`:
`if len(output) > 0 { output = output[:len(output)-1] }`. The last byte of a
non-empty `output` is the newline the loop appended. -/
def stripLast (output : Str) : Str :=
  if goLen output > 0 then output.dropLast else output

/-- The function `replaceFile` of `ConfigMapFromVault.go`. -/
def replaceFile (isLetterOrDigit : Char → Bool) (V : Vault) (f : File) : Run :=
  replaceFileWith stripLast isLetterOrDigit V f

end ConfigMapFromVault

namespace VaultReplaceInline

/-- The end of `replaceFile` in `VaultReplaceInline.go`:
`if len(output) > 1 { output = output[:len(output)-1] }`. -/
def stripLast (output : Str) : Str :=
  if goLen output > 1 then output.dropLast else output

/-- The function `replaceFile` of `VaultReplaceInline.go`. -/
def replaceFile (isLetterOrDigit : Char → Bool) (V : Vault) (f : File) : Run :=
  replaceFileWith stripLast isLetterOrDigit V f

/-- The loop of `replaceFiles`: `output = output + "---\n" + out` for every
file, the first error ends it. -/
def replaceFilesLoop (isLetterOrDigit : Char → Bool) (V : Vault) : List File → Str → Run
  | [], output => ⟨.val (output, none), []⟩
  | f :: rest, output =>
    match replaceFile isLetterOrDigit V f with
    | ⟨.panic, calls⟩ => ⟨.panic, calls⟩
    | ⟨.val (_, some err), calls⟩ => ⟨.val ([], some err), calls⟩
    | ⟨.val (out, none), calls⟩ =>
      let r := replaceFilesLoop isLetterOrDigit V rest (output ++ "---\n".toList ++ out)
      ⟨r.out, calls ++ r.calls⟩

/-- The function `replaceFiles` of `VaultReplaceInline.go`. -/
def replaceFiles (isLetterOrDigit : Char → Bool) (V : Vault) (files : List File) : Run :=
  replaceFilesLoop isLetterOrDigit V files []

end VaultReplaceInline

/-! ## `createSecret` of `SecretFromVault.go` -/

/-- The bytes of a character in UTF-8. -/
def utf8Bytes (c : Char) : List Nat :=
  let n := c.toNat
  if n < 128 then [n]
  else if n < 2048 then [192 + n / 64, 128 + n % 64]
  else if n < 65536 then [224 + n / 4096, 128 + n / 64 % 64, 128 + n % 64]
  else [240 + n / 262144, 128 + n / 4096 % 64, 128 + n / 64 % 64, 128 + n % 64]

/-- The bytes of a Go string, `[]byte(s)`. -/
def goBytes : Str → List Nat
  | [] => []
  | c :: cs => utf8Bytes c ++ goBytes cs

/-- The alphabet of the standard base64 encoding. -/
def base64Alphabet : Str :=
  "ABCDEFGHIJKLMNOPQRSTUVWXYZabcdefghijklmnopqrstuvwxyz0123456789+/".toList

/-- The base64 digit of a 6-bit value. -/
def base64Digit (n : Nat) : Char := base64Alphabet.getD n '='

/-- Go `base64.StdEncoding.EncodeToString` on bytes: three bytes give four
digits, a last group of one or two bytes is padded with `=`. -/
def base64Encode : List Nat → Str
  | [] => []
  | [a] => [base64Digit (a / 4), base64Digit (a % 4 * 16), '=', '=']
  | [a, b] =>
    [base64Digit (a / 4), base64Digit (a % 4 * 16 + b / 16), base64Digit (b % 16 * 4), '=']
  | a :: b :: c :: rest =>
    base64Digit (a / 4) :: base64Digit (a % 4 * 16 + b / 16) ::
      base64Digit (b % 16 * 4 + c / 64) :: base64Digit (c % 64) :: base64Encode rest

/-- The expression `base64.StdEncoding.EncodeToString([]byte(s))`. -/
def base64Std (s : Str) : Str := base64Encode (goBytes s)

/-- The struct `openshiftSecret`; `Data` is the Go map of the encoded values. -/
structure openshiftSecret where
  Name : Str
  NameSpace : Str
  Data : List (Str × Str)
deriving DecidableEq, Repr

/-- Assignment to a Go map, `m[k] = v`. -/
def mapSet : List (Str × Str) → Str → Str → List (Str × Str)
  | [], k, v => [(k, v)]
  | (k1, v1) :: rest, k, v => if k1 = k then (k, v) :: rest else (k1, v1) :: mapSet rest k v

/-- Reading a Go map of strings; `none` when the key is absent. -/
def mapGet : List (Str × Str) → Str → Option Str
  | [], _ => none
  | (k1, v1) :: rest, k => if k1 = k then some v1 else mapGet rest k

/-- The first loop of `createSecret`: `allKeys` becomes true as soon as one
element of `vaultKeys` is `*`. -/
def allKeysOf : List Str → Bool
  | [] => false
  | d :: rest => if d = ['*'] then true else allKeysOf rest

/-- The inner loop `for _, k2 := range vaultKeys` of `createSecret` for one
entry `k, v` of the secret. -/
def selectKey (k : Str) (v : Val) : List Str → List (Str × Str) → Ret (List (Str × Str))
  | [], tempData => .val tempData
  | k2 :: rest, tempData =>
    if k = k2 then
      match v with
      | .str s => selectKey k v rest (mapSet tempData k (base64Std s))
      | _ => .panic
    else selectKey k v rest tempData

/-- The loop `for k, v := range d` of `createSecret`; the list order stands for
the iteration order of the Go map. -/
def createSecretRange (allKeys : Bool) (vaultKeys : List Str) :
    List (Str × Val) → List (Str × Str) → Ret (List (Str × Str))
  | [], tempData => .val tempData
  | (k, v) :: rest, tempData =>
    if allKeys then
      match v with
      | .str s => createSecretRange allKeys vaultKeys rest (mapSet tempData k (base64Std s))
      | _ => .panic
    else
      match selectKey k v vaultKeys tempData with
      | .val t => createSecretRange allKeys vaultKeys rest t
      | .panic => .panic

/-- The function `createSecret`: the error it returns, or the `openshiftSecret`
it hands to the template when it returns `nil`. -/
def createSecret (V : Vault) (vaultSecret : Str) (vaultKeys : List Str)
    (nameSecret nameSpace : Str) : Ret (Except Error openshiftSecret) :=
  let allKeys := allKeysOf vaultKeys
  match V.clientErr with
  | some err => .val (.error err)
  | none =>
    match V.read vaultSecret with
    | (_, some err) => .val (.error err)
    | (none, none) => .val (.error ("Secret ".toList ++ vaultSecret ++ " not exists".toList))
    | (some vaultData, none) =>
      match mapIndex vaultData.data "data".toList with
      | .null => .val (.error "Data not found".toList)
      | .dict d =>
        match createSecretRange allKeys vaultKeys d [] with
        | .val tempData => .val (.ok ⟨nameSecret, nameSpace, tempData⟩)
        | .panic => .panic
      | _ => .panic

/-! ## Words of the specification about the substitution -/

/-- The processed form of a line: the line itself when it has no reference,
otherwise the line after `ReplaceAllString` with the secret `getSecret` gives
for the first reference (the line is left as it is when `getSecret` fails). -/
def processLine (isLetterOrDigit : Char → Bool) (V : Vault) (line : Str) : Str :=
  match findSubmatch line with
  | none => line
  | some m =>
    match getSecret V m.path m.key with
    | .val (secret, none) => replaceAllString isLetterOrDigit line secret
    | _ => line

/-- The resolver call a line causes: none without a reference, otherwise one
call with the path and key of the first match. -/
def lineCall (line : Str) : Option (Str × Str) :=
  match findSubmatch line with
  | none => none
  | some m => some (m.path, m.key)

/-- The resolver succeeds on the line: if the line has a reference, `getSecret`
returns a value and no error for it. -/
def LineOk (V : Vault) (line : Str) : Prop :=
  ∀ m, findSubmatch line = some m → ∃ secret, getSecret V m.path m.key = .val (secret, none)

/-- Every line followed by one newline, in order. -/
def withNewlines : List Str → Str
  | [] => []
  | p :: ps => p ++ '\n' :: withNewlines ps

/-! ## Example inputs -/

/-- A Vault server with one secret at `kv/app`, holding `user`, `pw`, a
password with dollar signs under `dollars` and a number under `port`. -/
def sampleVault : Vault :=
  { clientErr := none
    read := fun p =>
      if p = "kv/app".toList then
        (some ⟨[("data".toList, Val.dict [("user".toList, Val.str "admin".toList),
            ("pw".toList, Val.str "s3cret".toList),
            ("dollars".toList, Val.str "a$$b".toList),
            ("port".toList, Val.other)])]⟩, none)
      else (none, none) }

/-- A regular file of the given size that opens and scans without error. -/
def regularFile (name : Str) (size : Nat) (lines : List Str) : File :=
  { name := name, info := some ⟨false, size⟩, statErr := none, openErr := none,
    lines := lines, scanErr := none }

/-- A file of three lines, the last two with a reference. -/
def sampleFile : File :=
  regularFile "app.conf".toList 52
    ["# settings".toList, "user: vault://kv/app@user".toList, "pw: vault://kv/app@pw".toList]

/-- A file whose only line refers to the password with dollar signs. -/
def dollarFile : File :=
  regularFile "app.conf".toList 27 ["pw: vault://kv/app@dollars".toList]

/-- A file whose second line refers to a key the secret does not have. -/
def missingKeyFile : File :=
  regularFile "app.conf".toList 60
    ["user: vault://kv/app@user".toList, "x: vault://kv/app@nokey".toList,
      "pw: vault://kv/app@pw".toList]

/-- A file that consists of one line terminator: one empty line, one byte. -/
def emptyLineFile : File := regularFile "blank.txt".toList 1 [[]]

/-- A file on which `os.Stat` fails with an error other than not-exist, so
that no file information comes back. -/
def deniedFile : File :=
  { name := "/etc/app/app.conf".toList
    info := none
    statErr := some ⟨"stat /etc/app/app.conf: permission denied".toList, false⟩
    openErr := some "open /etc/app/app.conf: permission denied".toList
    lines := []
    scanErr := none }

/-- A Vault server whose secret at `kv/flat` stores a string under the name
`data` (a key/value store of version 1 with a field called `data`). -/
def flatVault : Vault :=
  { clientErr := none
    read := fun p =>
      if p = "kv/flat".toList then
        (some ⟨[("data".toList, Val.str "plain".toList)]⟩, none)
      else (none, none) }

/-- Two files of one line each, `x` and `y`. -/
def fileX : File := regularFile "a.yaml".toList 2 [['x']]

/-- The second of the two one-line files. -/
def fileY : File := regularFile "b.yaml".toList 2 [['y']]

/-- The string entries of a secret as values of a Go map. -/
def stringEntries (d : List (Str × Str)) : List (Str × Val) :=
  d.map (fun kv => (kv.1, Val.str kv.2))

/-- A Vault server with one secret at `kv/login` that holds two strings. -/
def loginVault : Vault :=
  { clientErr := none
    read := fun p =>
      if p = "kv/login".toList then
        (some ⟨[("data".toList,
          Val.dict (stringEntries [("user".toList, "admin".toList), ("pw".toList, "s3cret".toList)]))]⟩,
          none)
      else (none, none) }

/-- A line that holds the reference `vault://kv/app@pw` twice. -/
def twiceLine : Str := "a: vault://kv/app@pw b: vault://kv/app@pw".toList

/-- A file whose only line holds the reference `vault://kv/app@pw` twice. -/
def twiceFile : File :=
  regularFile "app.conf".toList 44 [twiceLine]

/-- A Vault server that answers every path with the same secret. -/
def anyPathVault : Vault :=
  { clientErr := none
    read := fun _ => (some ⟨[("data".toList, Val.dict [("pw".toList, Val.str "s3cret".toList)])]⟩,
      none) }

/-- An existing regular file of two lines without reference that the process
may not open: `os.Stat` succeeds and `os.OpenFile` fails. -/
def unreadableFile : File :=
  { name := "app.conf".toList
    info := some ⟨false, 10⟩
    statErr := none
    openErr := some "open app.conf: permission denied".toList
    lines := ["a: 1".toList, "b: 2".toList]
    scanErr := none }

/-- An existing regular file of 70000 bytes whose first line is longer than the
64 KiB a `bufio.Scanner` accepts for one line: the scanner delivers no line
and `sc.Err()` reports `bufio.ErrTooLong`. -/
def longLineFile : File :=
  { name := "big.conf".toList
    info := some ⟨false, 70000⟩
    statErr := none
    openErr := none
    lines := []
    scanErr := some "bufio.Scanner: token too long".toList }

/-! ## Words of the specification about the matcher -/

/-- The text contains an `@` immediately followed by a word character. -/
def AtWord (s : Str) : Prop :=
  ∃ x w y, s = x ++ '@' :: w :: y ∧ isWord w = true

/-- The text contains `vault://` followed by at least one character and, after
that, an `@` immediately followed by a word character. -/
def HasReference (s : Str) : Prop :=
  ∃ a b w c, b ≠ [] ∧ isWord w = true ∧ s = a ++ vaultLit ++ b ++ '@' :: w :: c

/-! ## Theorems -/

theorem findSubmatch_sample_one :
    findSubmatch "pw: vault://kv/app@pass word".toList
      = some ⟨"pw: ".toList, "kv/app".toList, "pass".toList, " word".toList⟩ := by decide

theorem findSubmatch_sample_greedy :
    findSubmatch "vault://a@b vault://c@d!".toList
      = some ⟨[], "a@b vault://c".toList, "d".toList, "!".toList⟩ := by decide

theorem findSubmatch_sample_empty_path : findSubmatch "vault://@a".toList = none := by decide

theorem stripLit_eq_some (a s t : Str) : stripLit a s = some t ↔ s = a ++ t := by
  induction a generalizing s with
  | nil => simp [stripLit, eq_comm]
  | cons x xs ih =>
    cases s with
    | nil => simp [stripLit]
    | cons c cs =>
      by_cases h : x = c
      · subst h; simp [stripLit, ih]
      · have h2 : ¬ c = x := fun e => h e.symm
        simp [stripLit, h, h2]

theorem matchKey_some {s k r : Str} (h : matchKey s = some (k, r)) :
    s = k ++ r ∧ k ≠ [] ∧ (∀ c ∈ k, isWord c = true) ∧
      (∀ c y, r = c :: y → isWord c = false) := by
  unfold matchKey at h
  split at h
  · exact absurd h (by simp)
  · rename_i hne
    simp only [Option.some.injEq, Prod.mk.injEq] at h
    obtain ⟨hk, hr⟩ := h
    subst hk; subst hr
    refine ⟨(List.takeWhile_append_dropWhile isWord s).symm, hne, ?_, ?_⟩
    · intro c hc; exact List.mem_takeWhile_imp hc
    · intro c y hy
      have := List.head?_dropWhile_not isWord s
      rw [hy] at this
      simpa using this

theorem matchKey_eq_none (s : Str) :
    matchKey s = none ↔ ∀ w y, s = w :: y → isWord w = false := by
  unfold matchKey
  cases s with
  | nil => simp
  | cons c cs =>
    by_cases hc : isWord c = true
    · simp [List.takeWhile_cons, hc]
    · simp [List.takeWhile_cons, hc]

theorem matchKey_isSome_of_word (w : Char) (y : Str) (hw : isWord w = true) :
    ∃ k r, matchKey (w :: y) = some (k, r) := by
  cases h : matchKey (w :: y) with
  | none =>
    rw [matchKey_eq_none] at h
    have := h w y rfl
    rw [hw] at this; exact absurd this (by simp)
  | some kr => exact ⟨kr.1, kr.2, rfl⟩

theorem atWord_nil : ¬ AtWord [] := by
  rintro ⟨x, w, y, h, -⟩
  cases x <;> simp at h

theorem atWord_cons (c : Char) (cs : Str) :
    AtWord (c :: cs) ↔ (c = '@' ∧ ∃ w y, cs = w :: y ∧ isWord w = true) ∨ AtWord cs := by
  constructor
  · rintro ⟨x, w, y, h, hw⟩
    cases x with
    | nil =>
      simp only [List.nil_append, List.cons.injEq] at h
      exact Or.inl ⟨h.1, w, y, h.2, hw⟩
    | cons x0 xs =>
      simp only [List.cons_append, List.cons.injEq] at h
      exact Or.inr ⟨xs, w, y, h.2, hw⟩
  · rintro (⟨hc, w, y, h, hw⟩ | ⟨x, w, y, h, hw⟩)
    · exact ⟨[], w, y, by simp [hc, h], hw⟩
    · exact ⟨c :: x, w, y, by simp [h], hw⟩

theorem atWord_append_left (t s : Str) (h : AtWord s) : AtWord (t ++ s) := by
  obtain ⟨x, w, y, hs, hw⟩ := h
  exact ⟨t ++ x, w, y, by simp [hs], hw⟩

theorem matchDots_eq_none (s : Str) (hs : ∀ c ∈ s, c ≠ '\n') :
    matchDots s = none ↔ ¬ AtWord s := by
  induction s with
  | nil => simp [matchDots, atWord_nil]
  | cons c cs ih =>
    have hc : isDot c = true := by simp [isDot, hs c (List.mem_cons_self _ _)]
    have ih2 := ih (fun d hd => hs d (List.mem_cons_of_mem _ hd))
    rw [atWord_cons]
    unfold matchDots
    simp only [hc, if_true]
    cases hrec : matchDots cs with
    | some pkr =>
      have : AtWord cs := by
        by_contra hn
        rw [← ih2, hrec] at hn
        exact absurd hn (by simp)
      simp [this]
    | none =>
      have hno : ¬ AtWord cs := ih2.mp hrec
      by_cases hat : c = '@'
      · subst hat
        cases hk : matchKey cs with
        | none =>
          rw [matchKey_eq_none] at hk
          simp only [if_true, true_iff]
          rintro (⟨-, w, y, hcs, hw⟩ | h)
          · rw [hk w y hcs] at hw; exact absurd hw (by simp)
          · exact hno h
        | some kr =>
          obtain ⟨k, r⟩ := kr
          obtain ⟨hcs, hne, hall, -⟩ := matchKey_some hk
          have : ('@' = '@' ∧ ∃ w y, cs = w :: y ∧ isWord w = true) ∨ AtWord cs := by
            cases k with
            | nil => exact absurd rfl hne
            | cons w k2 =>
              exact Or.inl ⟨rfl, w, k2 ++ r, by simpa using hcs, hall w (List.mem_cons_self _ _)⟩
          simp only [if_true, reduceCtorEq, false_iff, not_not]
          simpa using this
      · simp [hat, hno]

theorem matchDots_some {s p k r : Str} (hs : ∀ c ∈ s, c ≠ '\n')
    (h : matchDots s = some (p, k, r)) :
    s = p ++ '@' :: (k ++ r) ∧ matchKey (k ++ r) = some (k, r) ∧ ¬ AtWord (k ++ r) := by
  induction s generalizing p with
  | nil => simp [matchDots] at h
  | cons c cs ih =>
    have hc : isDot c = true := by simp [isDot, hs c (List.mem_cons_self _ _)]
    have hcs : ∀ d ∈ cs, d ≠ '\n' := fun d hd => hs d (List.mem_cons_of_mem _ hd)
    unfold matchDots at h
    simp only [hc, if_true] at h
    cases hrec : matchDots cs with
    | some pkr =>
      obtain ⟨p2, k2, r2⟩ := pkr
      rw [hrec] at h
      simp only [Option.some.injEq, Prod.mk.injEq] at h
      obtain ⟨hp, hk, hr⟩ := h
      subst hp; subst hk; subst hr
      obtain ⟨e, hkey, hno⟩ := ih hcs hrec
      exact ⟨by rw [e]; rfl, hkey, hno⟩
    | none =>
      rw [hrec] at h
      simp only at h
      split at h
      · rename_i hat
        cases hk : matchKey cs with
        | none => rw [hk] at h; simp at h
        | some kr =>
          obtain ⟨k2, r2⟩ := kr
          rw [hk] at h
          simp only [Option.some.injEq, Prod.mk.injEq] at h
          obtain ⟨hp, hk2, hr2⟩ := h
          subst hp; subst hk2; subst hr2
          have e := (matchKey_some hk).1
          refine ⟨by rw [hat, ← e]; rfl, by rw [← e]; exact hk, ?_⟩
          rw [← e]
          exact (matchDots_eq_none cs hcs).mp hrec
      · simp at h

theorem matchPath_some {t p k r : Str} (ht : ∀ c ∈ t, c ≠ '\n')
    (h : matchPath t = some (p, k, r)) :
    t = p ++ '@' :: (k ++ r) ∧ p ≠ [] ∧ matchKey (k ++ r) = some (k, r) ∧
      ¬ AtWord (k ++ r) := by
  cases t with
  | nil => simp [matchPath] at h
  | cons c cs =>
    have hc : isDot c = true := by simp [isDot, ht c (List.mem_cons_self _ _)]
    have hcs : ∀ d ∈ cs, d ≠ '\n' := fun d hd => ht d (List.mem_cons_of_mem _ hd)
    unfold matchPath at h
    simp only [hc, if_true] at h
    cases hrec : matchDots cs with
    | none => rw [hrec] at h; simp at h
    | some pkr =>
      obtain ⟨p2, k2, r2⟩ := pkr
      rw [hrec] at h
      simp only [Option.some.injEq, Prod.mk.injEq] at h
      obtain ⟨hp, hk, hr⟩ := h
      subst hp; subst hk; subst hr
      obtain ⟨e, hkey, hno⟩ := matchDots_some hcs hrec
      exact ⟨by rw [e]; rfl, by simp, hkey, hno⟩

theorem matchHere_some {s p k r : Str} (hs : ∀ c ∈ s, c ≠ '\n')
    (h : matchHere s = some (p, k, r)) :
    s = vaultLit ++ p ++ '@' :: (k ++ r) ∧ p ≠ [] ∧ matchKey (k ++ r) = some (k, r) ∧
      ¬ AtWord (k ++ r) := by
  unfold matchHere at h
  cases hst : stripLit vaultLit s with
  | none => rw [hst] at h; simp at h
  | some t =>
    rw [hst] at h
    simp only at h
    rw [stripLit_eq_some] at hst
    have ht : ∀ c ∈ t, c ≠ '\n' := fun c hc => hs c (by rw [hst]; exact List.mem_append_right _ hc)
    obtain ⟨e, hp, hkey, hno⟩ := matchPath_some ht h
    exact ⟨by rw [hst, e, List.append_assoc], hp, hkey, hno⟩

theorem matchHere_ne_none (s u y : Str) (w : Char) (hs : ∀ c ∈ s, c ≠ '\n')
    (hpre : ∃ t, s = vaultLit ++ t) (hdec : s = u ++ '@' :: w :: y)
    (hw : isWord w = true) (hu : 9 ≤ u.length) : matchHere s ≠ none := by
  obtain ⟨t, ht⟩ := hpre
  have hst : stripLit vaultLit s = some t := (stripLit_eq_some _ _ _).mpr ht
  have hdrop : s.drop 9 = u.drop 9 ++ '@' :: w :: y := by
    rw [hdec]; exact List.drop_append_of_le_length hu
  have ht8 : t = s.drop 8 := by rw [ht]; simp [vaultLit]
  cases t with
  | nil =>
    have hl : s.length = 8 := by rw [ht]; simp [vaultLit]
    have hl2 : s.length = u.length + (y.length + 2) := by rw [hdec]; simp
    omega
  | cons t0 t1 =>
    have ht1 : t1 = s.drop 9 := by rw [ht]; simp [vaultLit]
    have hmem : ∀ c ∈ t0 :: t1, c ≠ '\n' :=
      fun c hc => hs c (by rw [ht]; exact List.mem_append_right _ hc)
    have hc : isDot t0 = true := by simp [isDot, hmem t0 (List.mem_cons_self _ _)]
    have hat : AtWord t1 := ⟨u.drop 9, w, y, by rw [ht1, hdrop], hw⟩
    have hd : matchDots t1 ≠ none := by
      intro hn
      exact (matchDots_eq_none t1 (fun d hd => hmem d (List.mem_cons_of_mem _ hd))).mp hn hat
    unfold matchHere
    rw [hst]
    simp only [matchPath, hc, if_true]
    cases hrec : matchDots t1 with
    | none => exact absurd hrec hd
    | some pkr => simp

theorem findSubmatch_some {s : Str} {m : Submatch} (hs : ∀ c ∈ s, c ≠ '\n')
    (h : findSubmatch s = some m) :
    s = m.before ++ vaultLit ++ m.path ++ '@' :: (m.key ++ m.after) ∧ m.path ≠ [] ∧
      matchKey (m.key ++ m.after) = some (m.key, m.after) ∧
      ¬ AtWord (m.key ++ m.after) := by
  induction s generalizing m with
  | nil => simp [findSubmatch] at h
  | cons c cs ih =>
    have hcs : ∀ d ∈ cs, d ≠ '\n' := fun d hd => hs d (List.mem_cons_of_mem _ hd)
    unfold findSubmatch at h
    cases hh : matchHere (c :: cs) with
    | some pkr =>
      obtain ⟨p, k, r⟩ := pkr
      rw [hh] at h
      simp only [Option.some.injEq] at h
      subst h
      obtain ⟨e, hp, hkey, hno⟩ := matchHere_some hs hh
      exact ⟨by simpa using e, hp, hkey, hno⟩
    | none =>
      rw [hh] at h
      simp only at h
      cases hf : findSubmatch cs with
      | none => rw [hf] at h; simp at h
      | some m2 =>
        rw [hf] at h
        simp only [Option.some.injEq] at h
        subst h
        obtain ⟨e, hp, hkey, hno⟩ := ih hcs hf
        refine ⟨?_, hp, hkey, hno⟩
        show c :: cs = (c :: m2.before) ++ vaultLit ++ m2.path ++ '@' :: (m2.key ++ m2.after)
        rw [List.cons_append, List.cons_append, List.cons_append, ← e]

theorem findSubmatch_first {s : Str} {m : Submatch} (hs : ∀ c ∈ s, c ≠ '\n')
    (h : findSubmatch s = some m) (a b : Str) (hab : s = a ++ vaultLit ++ b) :
    m.before.length ≤ a.length := by
  induction s generalizing m a with
  | nil => simp [findSubmatch] at h
  | cons c cs ih =>
    have hcs : ∀ d ∈ cs, d ≠ '\n' := fun d hd => hs d (List.mem_cons_of_mem _ hd)
    unfold findSubmatch at h
    cases hh : matchHere (c :: cs) with
    | some pkr =>
      obtain ⟨p, k, r⟩ := pkr
      rw [hh] at h
      simp only [Option.some.injEq] at h
      subst h
      simp
    | none =>
      rw [hh] at h
      simp only at h
      cases hf : findSubmatch cs with
      | none => rw [hf] at h; simp at h
      | some m2 =>
        rw [hf] at h
        simp only [Option.some.injEq] at h
        subst h
        obtain ⟨e, hp, hkey, -⟩ := findSubmatch_some hcs hf
        obtain ⟨-, hkne, hkall, -⟩ := matchKey_some hkey
        cases a with
        | nil =>
          exfalso
          cases hk : m2.key with
          | nil => exact hkne hk
          | cons w k2 =>
            have hw : isWord w = true := hkall w (by rw [hk]; exact List.mem_cons_self _ _)
            have hp1 : 1 ≤ m2.path.length := by
              cases hpp : m2.path with
              | nil => exact absurd hpp hp
              | cons _ _ => simp
            refine matchHere_ne_none (c :: cs) (c :: m2.before ++ vaultLit ++ m2.path)
              (k2 ++ m2.after) w hs ⟨b, by simpa using hab⟩ ?_ hw ?_ hh
            · rw [e, hk]; simp
            · simp [vaultLit]; omega
        | cons a0 a1 =>
          simp only [List.cons_append, List.cons.injEq] at hab
          have := ih hcs hf a1 hab.2
          simp only [List.length_cons]
          omega

theorem findSubmatch_ne_none (s : Str) (hs : ∀ c ∈ s, c ≠ '\n') (h : HasReference s) :
    findSubmatch s ≠ none := by
  obtain ⟨a, b, w, c, hb, hw, e⟩ := h
  induction a generalizing s with
  | nil =>
    have hb1 : 1 ≤ b.length := by
      cases b with
      | nil => exact absurd rfl hb
      | cons _ _ => simp
    have hm : matchHere s ≠ none := by
      refine matchHere_ne_none s (vaultLit ++ b) c w hs ⟨b ++ '@' :: w :: c, ?_⟩ ?_ hw ?_
      · rw [e]; simp
      · rw [e]; simp
      · simp [vaultLit]; omega
    cases s with
    | nil => simp [vaultLit] at e
    | cons s0 s1 =>
      unfold findSubmatch
      cases hh : matchHere (s0 :: s1) with
      | none => exact absurd hh hm
      | some pkr => simp
  | cons a0 a1 ih =>
    cases s with
    | nil => simp at e
    | cons s0 s1 =>
      simp only [List.cons_append, List.cons.injEq] at e
      have hs1 : ∀ d ∈ s1, d ≠ '\n' := fun d hd => hs d (List.mem_cons_of_mem _ hd)
      have := ih s1 hs1 e.2
      unfold findSubmatch
      cases hh : matchHere (s0 :: s1) with
      | some pkr => simp
      | none =>
        cases hf : findSubmatch s1 with
        | none => exact absurd hf this
        | some m => simp

theorem findSubmatch_after {s : Str} {m : Submatch} (hs : ∀ c ∈ s, c ≠ '\n')
    (h : findSubmatch s = some m) : findSubmatch m.after = none := by
  obtain ⟨e, -, -, hno⟩ := findSubmatch_some hs h
  have ha : ∀ c ∈ m.after, c ≠ '\n' := by
    intro c hc
    apply hs c
    rw [e]
    simp [hc]
  cases hf : findSubmatch m.after with
  | none => rfl
  | some m2 =>
    exfalso
    obtain ⟨e2, -, hkey, -⟩ := findSubmatch_some ha hf
    obtain ⟨-, hkne, hkall, -⟩ := matchKey_some hkey
    cases hk : m2.key with
    | nil => exact hkne hk
    | cons w k2 =>
      have hw : isWord w = true := hkall w (by rw [hk]; exact List.mem_cons_self _ _)
      apply hno
      apply atWord_append_left
      exact ⟨m2.before ++ vaultLit ++ m2.path, w, k2 ++ m2.after, by rw [e2, hk]; simp, hw⟩

/-- C9: on a line without newline, the first match of `vault:\/\/(.+)@(\w+)`
exists exactly when the line has `vault://`, then at least one character, then
an `@` directly followed by a word character. The match then starts at the
first `vault://` of the line, the path runs up to the last `@` that is directly
followed by a word character, the key is the longest run of word characters
after that `@`, and no second match follows the first. -/
theorem regexVault_first_match (line : Str) (hnl : ∀ c ∈ line, c ≠ '\n') :
    (matchString line = true ↔ HasReference line) ∧
    ∀ m, findSubmatch line = some m →
      line = m.before ++ vaultLit ++ m.path ++ '@' :: m.key ++ m.after ∧
      (∀ a b, line = a ++ vaultLit ++ b → m.before.length ≤ a.length) ∧
      m.path ≠ [] ∧
      (m.key ≠ [] ∧ (∀ c ∈ m.key, isWord c = true) ∧
        (∀ c r, m.after = c :: r → isWord c = false)) ∧
      ¬ AtWord (m.key ++ m.after) ∧
      findSubmatch m.after = none := by
  refine ⟨⟨?_, ?_⟩, ?_⟩
  · intro h
    cases hf : findSubmatch line with
    | none => simp [matchString, hf] at h
    | some m =>
      obtain ⟨e, hp, hkey, -⟩ := findSubmatch_some hnl hf
      obtain ⟨-, hkne, hkall, -⟩ := matchKey_some hkey
      cases hk : m.key with
      | nil => exact absurd hk hkne
      | cons w k2 =>
        have hw : isWord w = true := hkall w (by rw [hk]; exact List.mem_cons_self _ _)
        exact ⟨m.before, m.path, w, k2 ++ m.after, hp, hw, by rw [e, hk]; simp⟩
  · intro h
    have := findSubmatch_ne_none line hnl h
    cases hf : findSubmatch line with
    | none => exact absurd hf this
    | some m => simp [matchString, hf]
  · intro m hf
    obtain ⟨e, hp, hkey, hno⟩ := findSubmatch_some hnl hf
    obtain ⟨-, hkne, hkall, hafter⟩ := matchKey_some hkey
    exact ⟨by rw [e]; simp, findSubmatch_first hnl hf, hp, ⟨hkne, hkall, hafter⟩, hno,
      findSubmatch_after hnl hf⟩

/-- Witness for C9 on the line `pw: vault://kv/app@pass word`. -/
theorem regexVault_first_match_witness :
    (∀ c ∈ "pw: vault://kv/app@pass word".toList, c ≠ '\n') ∧
    (matchString "pw: vault://kv/app@pass word".toList = true ↔
      HasReference "pw: vault://kv/app@pass word".toList) :=
  ⟨by decide, (regexVault_first_match _ (by decide)).1⟩

/-! ### The replacement and the scan loop -/

theorem replaceAllString_none (u : Char → Bool) (src repl : Str)
    (h : findSubmatch src = none) : replaceAllString u src repl = src := by
  simp [replaceAllString, replaceAllLoop, h]

theorem replaceAllString_some (u : Char → Bool) (src repl : Str) (m : Submatch)
    (hs : ∀ c ∈ src, c ≠ '\n') (h : findSubmatch src = some m) :
    replaceAllString u src repl = m.before ++ expand u repl m ++ m.after := by
  have ha := findSubmatch_after hs h
  cases src with
  | nil => simp [findSubmatch] at h
  | cons c cs =>
    simp [replaceAllString, replaceAllLoop, h, ha]

theorem goLen_pos (s : Str) : 0 < goLen s ↔ s ≠ [] := by
  cases s with
  | nil => simp [goLen]
  | cons c cs =>
    have : 1 ≤ charLen c := by unfold charLen; split_ifs <;> omega
    simp [goLen]; omega

theorem withNewlines_append (a b : List Str) :
    withNewlines (a ++ b) = withNewlines a ++ withNewlines b := by
  induction a with
  | nil => rfl
  | cons x xs ih => simp [withNewlines, ih]

theorem withNewlines_dropLast (p : Str) (ps : List Str) :
    (withNewlines (p :: ps)).dropLast = List.intercalate ['\n'] (p :: ps) := by
  induction ps generalizing p with
  | nil => simp [withNewlines, List.intercalate, List.dropLast_append_of_ne_nil]
  | cons q qs ih =>
    have hne : withNewlines (q :: qs) ≠ [] := by simp [withNewlines]
    have e : withNewlines (p :: q :: qs) = (p ++ ['\n']) ++ withNewlines (q :: qs) := by
      simp [withNewlines]
    rw [e, List.dropLast_append_of_ne_nil _ hne, ih]
    simp [List.intercalate, List.intersperse]

theorem scanLoop_ok (u : Char → Bool) (V : Vault) (lines : List Str) (output : Str)
    (hok : ∀ l ∈ lines, LineOk V l) :
    scanLoop u V lines output =
      (.finished (output ++ withNewlines (lines.map (processLine u V))),
        lines.filterMap lineCall) := by
  induction lines generalizing output with
  | nil => simp [scanLoop, withNewlines]
  | cons l ls ih =>
    have ih2 := fun o => ih o (fun x hx => hok x (List.mem_cons_of_mem _ hx))
    have hl := hok l (List.mem_cons_self _ _)
    cases hf : findSubmatch l with
    | none =>
      simp [scanLoop, hf, ih2, processLine, lineCall, withNewlines]
    | some m =>
      obtain ⟨secret, hsec⟩ := hl m hf
      simp [scanLoop, hf, hsec, ih2, processLine, lineCall, withNewlines]

theorem scanLoop_fail (u : Char → Bool) (V : Vault) (pre post : List Str) (l : Str)
    (output secret : Str) (e : Error) (m : Submatch)
    (hok : ∀ x ∈ pre, LineOk V x) (hm : findSubmatch l = some m)
    (hfail : getSecret V m.path m.key = .val (secret, some e)) :
    scanLoop u V (pre ++ l :: post) output =
      (.returned (.val ([], some e)), pre.filterMap lineCall ++ [(m.path, m.key)]) := by
  induction pre generalizing output with
  | nil => simp [scanLoop, hm, hfail]
  | cons x xs ih =>
    have ih2 := fun o => ih o (fun y hy => hok y (List.mem_cons_of_mem _ hy))
    have hx := hok x (List.mem_cons_self _ _)
    cases hf : findSubmatch x with
    | none => simp [scanLoop, hf, ih2, lineCall]
    | some mx =>
      obtain ⟨sx, hsx⟩ := hx mx hf
      simp [scanLoop, hf, hsx, ih2, lineCall]

/-! ### Claims about `replaceFile` -/

theorem replaceFileWith_regular (strip : Str → Str) (u : Char → Bool) (V : Vault) (f : File)
    (sz : Nat) (hinfo : f.info = some ⟨false, sz⟩) (hstat : f.statErr = none)
    (hsz : sz ≠ 0) (hopen : f.openErr = none) :
    replaceFileWith strip u V f =
      match scanLoop u V f.lines [] with
      | (.returned r, calls) => ⟨r, calls⟩
      | (.finished output, calls) =>
        match f.scanErr with
        | some err => ⟨.val ([], some ("Scan file error: ".toList ++ err)), calls⟩
        | none => ⟨.val (strip output, none), calls⟩ := by
  simp [replaceFileWith, checkIfFileSize, hinfo, hstat, isNotExist, hsz, hopen]

theorem sampleVault_lineOk (l : Str) (hl : l ∈ sampleFile.lines) : LineOk sampleVault l := by
  simp only [sampleFile, regularFile, List.mem_cons, List.mem_singleton, List.mem_nil_iff,
    or_false] at hl
  intro m hm
  rcases hl with h | h | h
  · subst h
    have : findSubmatch "# settings".toList = none := by decide
    rw [this] at hm; exact absurd hm (by simp)
  · subst h
    have : findSubmatch "user: vault://kv/app@user".toList
        = some ⟨"user: ".toList, "kv/app".toList, "user".toList, []⟩ := by decide
    rw [this] at hm
    simp only [Option.some.injEq] at hm
    subst hm
    exact ⟨"admin".toList, by decide⟩
  · subst h
    have : findSubmatch "pw: vault://kv/app@pw".toList
        = some ⟨"pw: ".toList, "kv/app".toList, "pw".toList, []⟩ := by decide
    rw [this] at hm
    simp only [Option.some.injEq] at hm
    subst hm
    exact ⟨"s3cret".toList, by decide⟩

/-- C4 as stated fails: an existing regular file on which no resolver call is
needed does not always give a result without error. When the file cannot be
opened `replaceFile` of `ConfigMapFromVault` returns an open error, and when a
line is longer than the scanner accepts it returns a scan error, in both cases
with the empty string and not with the lines of the file. -/
theorem ConfigMapFromVault_replaceFile_lines_counterexample :
    (unreadableFile.info = some ⟨false, 10⟩ ∧ unreadableFile.statErr = none ∧
      unreadableFile.lines.filterMap lineCall = []) ∧
      ConfigMapFromVault.replaceFile Char.isAlphanum sampleVault unreadableFile =
        ⟨.val ([], some "Open file error: open app.conf: permission denied".toList), []⟩ ∧
      ConfigMapFromVault.replaceFile Char.isAlphanum sampleVault unreadableFile ≠
        ⟨.val (List.intercalate ['\n']
            (unreadableFile.lines.map (processLine Char.isAlphanum sampleVault)), none),
          unreadableFile.lines.filterMap lineCall⟩ ∧
      (longLineFile.info = some ⟨false, 70000⟩ ∧ longLineFile.statErr = none) ∧
      ConfigMapFromVault.replaceFile Char.isAlphanum sampleVault longLineFile =
        ⟨.val ([], some "Scan file error: bufio.Scanner: token too long".toList), []⟩ := by
  refine ⟨⟨rfl, rfl, rfl⟩, rfl, ?_, ⟨rfl, rfl⟩, rfl⟩
  decide

/-- C4 amended: in `ConfigMapFromVault`, on an existing regular file that opens
and is scanned without error, whose lines are `l1..ln` (none when its size is
zero) and on which every resolver call succeeds, `replaceFile` returns no
error and the processed lines joined by single newlines, in order, after one
resolver call per line with a reference; a line without reference is its own
processed form, and the file without lines gives the empty string and no
resolver call. -/
theorem ConfigMapFromVault_replaceFile_lines (u : Char → Bool) (V : Vault) (f : File)
    (sz : Nat) (hinfo : f.info = some ⟨false, sz⟩) (hstat : f.statErr = none)
    (hopen : f.openErr = none) (hscan : f.scanErr = none)
    (hzero : sz = 0 → f.lines = []) (hok : ∀ l ∈ f.lines, LineOk V l) :
    ConfigMapFromVault.replaceFile u V f =
        ⟨.val (List.intercalate ['\n'] (f.lines.map (processLine u V)), none),
          f.lines.filterMap lineCall⟩ ∧
      (∀ l, findSubmatch l = none → processLine u V l = l) ∧
      (∀ l m secret, findSubmatch l = some m →
        getSecret V m.path m.key = .val (secret, none) →
        processLine u V l = replaceAllString u l secret) ∧
      (f.lines = [] → ConfigMapFromVault.replaceFile u V f = ⟨.val ([], none), []⟩) := by
  have main : ConfigMapFromVault.replaceFile u V f =
        ⟨.val (List.intercalate ['\n'] (f.lines.map (processLine u V)), none),
          f.lines.filterMap lineCall⟩ := by
    by_cases hsz : sz = 0
    · have hl := hzero hsz
      simp [ConfigMapFromVault.replaceFile, replaceFileWith, checkIfFileSize, hinfo, hstat,
        isNotExist, hsz, hl, List.intercalate]
    · rw [ConfigMapFromVault.replaceFile, replaceFileWith_regular _ u V f sz hinfo hstat hsz hopen,
        scanLoop_ok u V f.lines [] hok]
      simp only [hscan, List.nil_append]
      cases hls : f.lines with
      | nil => simp [withNewlines, ConfigMapFromVault.stripLast, goLen, List.intercalate]
      | cons l ls =>
        have hne : withNewlines (List.map (processLine u V) (l :: ls)) ≠ [] := by
          simp [withNewlines]
        have hpos := (goLen_pos _).mpr hne
        simp only [ConfigMapFromVault.stripLast, hpos, if_true]
        rw [List.map_cons, withNewlines_dropLast]
  refine ⟨main, ?_, ?_, ?_⟩
  · intro l hl; simp [processLine, hl]
  · intro l m secret hm hsec; simp [processLine, hm, hsec]
  · intro hl; rw [main, hl]; simp [List.intercalate]

/-- Witness for the amended C4 on the three-line sample file. -/
theorem ConfigMapFromVault_replaceFile_lines_witness :
    ConfigMapFromVault.replaceFile Char.isAlphanum sampleVault sampleFile =
      ⟨.val (List.intercalate ['\n']
          (sampleFile.lines.map (processLine Char.isAlphanum sampleVault)), none),
        sampleFile.lines.filterMap lineCall⟩ :=
  (ConfigMapFromVault_replaceFile_lines Char.isAlphanum sampleVault sampleFile 52 rfl rfl rfl rfl
    (by decide) sampleVault_lineOk).1

/-- C6: when the resolver fails on a line with a reference and succeeded on
every line before it, `replaceFile` (of both programs) returns that failure as
its error with the empty string, and the calls made are those of the earlier
lines followed by the failing one: no call for any later line. -/
theorem replaceFile_resolver_failure (u : Char → Bool) (V : Vault) (f : File) (sz : Nat)
    (pre post : List Str) (l secret : Str) (m : Submatch) (e : Error)
    (hinfo : f.info = some ⟨false, sz⟩) (hstat : f.statErr = none) (hsz : sz ≠ 0)
    (hopen : f.openErr = none) (hlines : f.lines = pre ++ l :: post)
    (hpre : ∀ x ∈ pre, LineOk V x) (hm : findSubmatch l = some m)
    (hfail : getSecret V m.path m.key = .val (secret, some e)) :
    ConfigMapFromVault.replaceFile u V f =
        ⟨.val ([], some e), pre.filterMap lineCall ++ [(m.path, m.key)]⟩ ∧
      VaultReplaceInline.replaceFile u V f =
        ⟨.val ([], some e), pre.filterMap lineCall ++ [(m.path, m.key)]⟩ := by
  constructor
  · rw [ConfigMapFromVault.replaceFile, replaceFileWith_regular _ u V f sz hinfo hstat hsz hopen,
      hlines, scanLoop_fail u V pre post l [] secret e m hpre hm hfail]
  · rw [VaultReplaceInline.replaceFile, replaceFileWith_regular _ u V f sz hinfo hstat hsz hopen,
      hlines, scanLoop_fail u V pre post l [] secret e m hpre hm hfail]

/-- Witness for C6: the second line of `missingKeyFile` asks for a key the
secret does not have. -/
theorem replaceFile_resolver_failure_witness :
    ConfigMapFromVault.replaceFile Char.isAlphanum sampleVault missingKeyFile =
        ⟨.val ([], some "Key \"nokey\" not found".toList),
          ["user: vault://kv/app@user".toList].filterMap lineCall ++
            [("kv/app".toList, "nokey".toList)]⟩ ∧
      VaultReplaceInline.replaceFile Char.isAlphanum sampleVault missingKeyFile =
        ⟨.val ([], some "Key \"nokey\" not found".toList),
          ["user: vault://kv/app@user".toList].filterMap lineCall ++
            [("kv/app".toList, "nokey".toList)]⟩ :=
  replaceFile_resolver_failure Char.isAlphanum sampleVault missingKeyFile 60
    ["user: vault://kv/app@user".toList] ["pw: vault://kv/app@pw".toList]
    "x: vault://kv/app@nokey".toList [] ⟨"x: ".toList, "kv/app".toList, "nokey".toList, []⟩
    "Key \"nokey\" not found".toList rfl rfl (by decide) rfl rfl
    (fun x hx => sampleVault_lineOk x (by
      simp only [List.mem_singleton] at hx
      subst hx
      simp [sampleFile, regularFile]))
    (by decide) (by decide)

/-- C1, the failing input: the secret `a$$b` is not put into the line as it is.
The line `pw: vault://kv/app@dollars` becomes `pw: a$b` in both programs, after
one resolver call, because `ReplaceAllString` reads `$$` in the secret as an
escaped dollar sign. -/
theorem replaceFile_secret_with_dollar (u : Char → Bool) :
    getSecret sampleVault "kv/app".toList "dollars".toList = .val ("a$$b".toList, none) ∧
      ConfigMapFromVault.replaceFile u sampleVault dollarFile =
        ⟨.val ("pw: a$b".toList, none), [("kv/app".toList, "dollars".toList)]⟩ ∧
      VaultReplaceInline.replaceFile u sampleVault dollarFile =
        ⟨.val ("pw: a$b".toList, none), [("kv/app".toList, "dollars".toList)]⟩ ∧
      "pw: a$b".toList ≠ "pw: ".toList ++ "a$$b".toList :=
  ⟨rfl, rfl, rfl, by decide⟩

/-- C5, the failing input: on the file that is one line terminator (one empty
line) `replaceFile` of `ConfigMapFromVault` returns the empty string and
`replaceFile` of `VaultReplaceInline` returns a newline, for every resolver. -/
theorem replaceFile_single_empty_line (u : Char → Bool) (V : Vault) :
    ConfigMapFromVault.replaceFile u V emptyLineFile = ⟨.val ([], none), []⟩ ∧
      VaultReplaceInline.replaceFile u V emptyLineFile = ⟨.val (['\n'], none), []⟩ :=
  ⟨rfl, rfl⟩

/-- C10, the failing input: when `os.Stat` fails with permission denied,
`checkIfFileSize` panics on the missing file information instead of returning
an error, and so does `replaceFile` in both programs; the other three outcomes
of `os.Stat` are answered as the claim says. -/
theorem checkIfFileSize_stat_denied :
    checkIfFileSize deniedFile = .panic ∧
      (∀ u V, ConfigMapFromVault.replaceFile u V deniedFile = ⟨.panic, []⟩) ∧
      (∀ u V, VaultReplaceInline.replaceFile u V deniedFile = ⟨.panic, []⟩) ∧
      (∀ name size lines, checkIfFileSize (regularFile name size lines) = .val (size, none)) ∧
      (∀ name size openErr lines scanErr,
        checkIfFileSize ⟨name, some ⟨true, size⟩, none, openErr, lines, scanErr⟩ =
          .val (0, some ("[ERROR] File \"".toList ++ name ++ "\" is a directory".toList))) ∧
      (∀ name info msg openErr lines scanErr,
        checkIfFileSize ⟨name, info, some ⟨msg, true⟩, openErr, lines, scanErr⟩ =
          .val (0, some msg)) :=
  ⟨rfl, fun _ _ => rfl, fun _ _ => rfl, fun _ _ _ => rfl, fun _ _ _ _ _ => rfl,
    fun _ _ _ _ _ _ => rfl⟩

/-- C8, the failing inputs: `getSecret` panics when the `data` entry of the
response is a string and not a map, and when the value stored under the key is
not a string; on that same map a key that is absent gives the key-not-found
error although not every value of the map is a string. -/
theorem getSecret_unexpected_shape :
    getSecret flatVault "kv/flat".toList "pw".toList = .panic ∧
      getSecret sampleVault "kv/app".toList "port".toList = .panic ∧
      getSecret sampleVault "kv/app".toList "nokey".toList =
        .val ([], some "Key \"nokey\" not found".toList) :=
  ⟨rfl, rfl, rfl⟩

/-! ### Claims about `replaceFiles` -/

/-- C3 as stated fails: the files `fileX` and `fileY` resolve to `x` and `y`,
and `replaceFiles` does not return `x`, newline, `---`, newline, `y`. -/
theorem replaceFiles_two_files_counterexample :
    (VaultReplaceInline.replaceFile Char.isAlphanum sampleVault fileX).out = .val (['x'], none) ∧
      (VaultReplaceInline.replaceFile Char.isAlphanum sampleVault fileY).out = .val (['y'], none) ∧
      (VaultReplaceInline.replaceFiles Char.isAlphanum sampleVault [fileX, fileY]).out ≠
        .val (['x'] ++ "\n---\n".toList ++ ['y'], none) := by
  refine ⟨rfl, rfl, ?_⟩
  decide

/-- C3 amended: for two files that resolve to `x` and `y`, `replaceFiles`
returns no error and a text in which every result, the first one too, comes
right after a separator line `---`, in list order: the separator, `x`, a gap
that is empty or one newline, the separator, `y`. The resolver calls are those
of the first file followed by those of the second. -/
theorem replaceFiles_two_files (u : Char → Bool) (V : Vault) (A B : File) (x y : Str)
    (hA : (VaultReplaceInline.replaceFile u V A).out = .val (x, none))
    (hB : (VaultReplaceInline.replaceFile u V B).out = .val (y, none)) :
    ∃ gap : Str, (gap = [] ∨ gap = ['\n']) ∧
      (VaultReplaceInline.replaceFiles u V [A, B]).out =
        .val ("---\n".toList ++ x ++ gap ++ "---\n".toList ++ y, none) ∧
      (VaultReplaceInline.replaceFiles u V [A, B]).calls =
        (VaultReplaceInline.replaceFile u V A).calls ++
          (VaultReplaceInline.replaceFile u V B).calls := by
  refine ⟨[], Or.inl rfl, ?_⟩
  cases hrA : VaultReplaceInline.replaceFile u V A with
  | mk outA callsA =>
    cases hrB : VaultReplaceInline.replaceFile u V B with
    | mk outB callsB =>
      rw [hrA] at hA
      rw [hrB] at hB
      simp only at hA hB
      subst hA; subst hB
      simp [VaultReplaceInline.replaceFiles, VaultReplaceInline.replaceFilesLoop, hrA, hrB]

/-- Witness for the amended C3 on the files `fileX` and `fileY`. -/
theorem replaceFiles_two_files_witness :
    ∃ gap : Str, (gap = [] ∨ gap = ['\n']) ∧
      (VaultReplaceInline.replaceFiles Char.isAlphanum sampleVault [fileX, fileY]).out =
        .val ("---\n".toList ++ ['x'] ++ gap ++ "---\n".toList ++ ['y'], none) ∧
      (VaultReplaceInline.replaceFiles Char.isAlphanum sampleVault [fileX, fileY]).calls =
        (VaultReplaceInline.replaceFile Char.isAlphanum sampleVault fileX).calls ++
          (VaultReplaceInline.replaceFile Char.isAlphanum sampleVault fileY).calls :=
  replaceFiles_two_files Char.isAlphanum sampleVault fileX fileY ['x'] ['y'] rfl rfl

/-! ### Claims about `createSecret` -/

theorem allKeysOf_eq_true (ks : List Str) : allKeysOf ks = true ↔ ['*'] ∈ ks := by
  induction ks with
  | nil => simp [allKeysOf]
  | cons d rest ih =>
    by_cases h : d = ['*']
    · simp [allKeysOf, h]
    · have h2 : ¬ ['*'] = d := fun e => h e.symm
      simp [allKeysOf, h, h2, ih]

theorem mapGet_mapSet (m : List (Str × Str)) (k v k1 : Str) :
    mapGet (mapSet m k v) k1 = if k = k1 then some v else mapGet m k1 := by
  induction m with
  | nil => simp [mapSet, mapGet]
  | cons e rest ih =>
    obtain ⟨ke, ve⟩ := e
    by_cases h : ke = k
    · subst h
      by_cases h1 : ke = k1 <;> simp [mapSet, mapGet, h1]
    · by_cases h1 : ke = k1
      · subst h1
        have h2 : ¬ k = ke := fun e => h e.symm
        simp [mapSet, mapGet, h, h2]
      · simp [mapSet, mapGet, h, h1, ih]

theorem selectKey_str (k s : Str) (ks : List Str) (tempData : List (Str × Str)) :
    ∃ t, selectKey k (.str s) ks tempData = .val t ∧
      ∀ k1, mapGet t k1 =
        if k = k1 ∧ k ∈ ks then some (base64Std s) else mapGet tempData k1 := by
  induction ks generalizing tempData with
  | nil => exact ⟨tempData, rfl, by simp⟩
  | cons k2 rest ih =>
    by_cases h : k = k2
    · subst h
      obtain ⟨t, ht, hget⟩ := ih (mapSet tempData k (base64Std s))
      refine ⟨t, by simp [selectKey, ht], ?_⟩
      intro k1
      rw [hget k1, mapGet_mapSet]
      by_cases h1 : k = k1 <;> simp [h1]
    · obtain ⟨t, ht, hget⟩ := ih tempData
      refine ⟨t, by simp [selectKey, h, ht], ?_⟩
      intro k1
      rw [hget k1]
      simp [h]

theorem mapGet_eq_none_of_not_mem (d : List (Str × Str)) (k : Str)
    (h : k ∉ d.map Prod.fst) : mapGet d k = none := by
  induction d with
  | nil => rfl
  | cons e rest ih =>
    obtain ⟨ke, ve⟩ := e
    simp only [List.map_cons, List.mem_cons, not_or] at h
    have h2 : ¬ ke = k := fun e => h.1 e.symm
    simp [mapGet, h2, ih h.2]

theorem createSecretRange_strings (allKeys : Bool) (ks : List Str) (d : List (Str × Str))
    (hnodup : (d.map Prod.fst).Nodup) (tempData : List (Str × Str)) :
    ∃ t, createSecretRange allKeys ks (stringEntries d) tempData = .val t ∧
      ∀ k, mapGet t k =
        match mapGet d k with
        | some s => if allKeys = true ∨ k ∈ ks then some (base64Std s) else mapGet tempData k
        | none => mapGet tempData k := by
  induction d generalizing tempData with
  | nil => exact ⟨tempData, rfl, by simp [mapGet]⟩
  | cons e rest ih =>
    obtain ⟨k0, s0⟩ := e
    simp only [List.map_cons, List.nodup_cons] at hnodup
    obtain ⟨hnot, hrest⟩ := hnodup
    have hnone := mapGet_eq_none_of_not_mem rest k0 hnot
    cases hall : allKeys with
    | true =>
      obtain ⟨t, ht, hget⟩ := ih hrest (mapSet tempData k0 (base64Std s0))
      rw [hall] at ht hget
      refine ⟨t, by simp [stringEntries, createSecretRange] at ht ⊢; exact ht, ?_⟩
      intro k
      rw [hget k, mapGet_mapSet]
      by_cases h : k0 = k
      · subst h; simp [mapGet, hnone]
      · simp [mapGet, h]
    | false =>
      obtain ⟨t1, ht1, hget1⟩ := selectKey_str k0 s0 ks tempData
      obtain ⟨t, ht, hget⟩ := ih hrest t1
      rw [hall] at ht hget
      refine ⟨t, by simp [stringEntries, createSecretRange, ht1] at ht ⊢; exact ht, ?_⟩
      intro k
      rw [hget k, hget1 k]
      by_cases h : k0 = k
      · subst h; simp [mapGet, hnone]
      · simp [mapGet, h]

/-- C7 as stated fails: with the key list `user`, `*`, which is not the list
that holds only `*`, `createSecret` puts the key `pw` into the Secret although
`pw` is not listed. -/
theorem createSecret_star_among_keys_counterexample :
    createSecret loginVault "kv/login".toList ["user".toList, ['*']] "app".toList
        "prod".toList =
        .val (.ok ⟨"app".toList, "prod".toList,
          [("user".toList, "YWRtaW4=".toList), ("pw".toList, "czNjcmV0".toList)]⟩) ∧
      mapGet [("user".toList, "YWRtaW4=".toList), ("pw".toList, "czNjcmV0".toList)]
        "pw".toList = some (base64Std "s3cret".toList) ∧
      ¬ (["user".toList, ['*']] = [['*']] ∨ "pw".toList ∈ ["user".toList, ['*']]) := by
  refine ⟨rfl, rfl, ?_⟩
  decide

/-- C7 amended: when the backend returns for the path a `data` map `d` of
strings, `createSecret` returns no error and builds the data map that holds,
for every key `k` of `d` such that the configured list contains `*` somewhere
or lists `k`, the base64 encoding of `d[k]`, and nothing else; a listed key
that `d` does not have gives no entry and no error. -/
theorem createSecret_data (V : Vault) (vaultSecret : Str) (vaultKeys : List Str)
    (nameSecret nameSpace : Str) (sec : Secret) (d : List (Str × Str))
    (hclient : V.clientErr = none) (hread : V.read vaultSecret = (some sec, none))
    (hdata : mapIndex sec.data "data".toList = Val.dict (stringEntries d))
    (hnodup : (d.map Prod.fst).Nodup) :
    ∃ data, createSecret V vaultSecret vaultKeys nameSecret nameSpace =
        .val (.ok ⟨nameSecret, nameSpace, data⟩) ∧
      ∀ k, mapGet data k =
        if ['*'] ∈ vaultKeys ∨ k ∈ vaultKeys then (mapGet d k).map base64Std else none := by
  obtain ⟨t, ht, hget⟩ := createSecretRange_strings (allKeysOf vaultKeys) vaultKeys d hnodup []
  refine ⟨t, by unfold createSecret; simp only [hclient, hread, hdata, ht], ?_⟩
  intro k
  rw [hget k]
  cases hk : mapGet d k with
  | none => simp [mapGet]
  | some v => simp [mapGet, allKeysOf_eq_true]

/-- Witness for the amended C7: the keys `user` and `missing` are listed, the
secret at `kv/login` has `user` and `pw`. -/
theorem createSecret_data_witness :
    ∃ data, createSecret loginVault "kv/login".toList ["user".toList, "missing".toList]
        "app".toList "prod".toList = .val (.ok ⟨"app".toList, "prod".toList, data⟩) ∧
      ∀ k, mapGet data k =
        if ['*'] ∈ ["user".toList, "missing".toList] ∨ k ∈ ["user".toList, "missing".toList]
        then (mapGet [("user".toList, "admin".toList), ("pw".toList, "s3cret".toList)] k).map
          base64Std
        else none :=
  createSecret_data loginVault "kv/login".toList ["user".toList, "missing".toList]
    "app".toList "prod".toList
    ⟨[("data".toList,
      Val.dict (stringEntries [("user".toList, "admin".toList), ("pw".toList, "s3cret".toList)]))]⟩
    [("user".toList, "admin".toList), ("pw".toList, "s3cret".toList)] rfl rfl rfl (by decide)

/-! ### A line with the same reference twice -/

theorem matchKey_some_eq {s k r : Str} (h : matchKey s = some (k, r)) :
    k = s.takeWhile isWord ∧ r = s.dropWhile isWord := by
  unfold matchKey at h
  split at h
  · exact absurd h (by simp)
  · simp only [Option.some.injEq, Prod.mk.injEq] at h
    exact ⟨h.1.symm, h.2.symm⟩

theorem after_length_le (k post key after : Str) (X Y : Str)
    (hk : k ≠ []) (hkw : ∀ c ∈ k, isWord c = true)
    (hkey : matchKey (key ++ after) = some (key, after)) (hno : ¬ AtWord (key ++ after))
    (h : X ++ '@' :: (k ++ post) = Y ++ '@' :: (key ++ after)) :
    after.length ≤ post.length ∧ X.length ≤ Y.length := by
  have hE : k ++ post = key ++ after → after.length ≤ post.length := by
    intro e
    rw [← e] at hkey
    have := (matchKey_some_eq hkey).2
    rw [List.dropWhile_append_of_pos hkw] at this
    rw [this]
    exact (List.dropWhile_suffix isWord).length_le
  rcases List.append_eq_append_iff.mp h with ⟨a, hY, hb⟩ | ⟨c, hX, hd⟩
  · refine ⟨?_, by rw [hY]; simp⟩
    cases a with
    | nil =>
      simp only [List.nil_append, List.cons.injEq, true_and] at hb
      exact hE hb
    | cons a0 a1 =>
      simp only [List.cons_append, List.cons.injEq] at hb
      rcases List.append_eq_append_iff.mp hb.2 with ⟨z, -, hz⟩ | ⟨z, hz, hz2⟩
      · have := congrArg List.length hz
        simp at this
        omega
      · cases z with
        | nil =>
          simp only [List.nil_append] at hz2
          rw [← hz2]
          simp
          omega
        | cons z0 z1 =>
          simp only [List.cons_append, List.cons.injEq] at hz2
          have hmem : '@' ∈ k := by rw [hz, ← hz2.1]; simp
          have := hkw '@' hmem
          exact absurd this (by decide)
  · cases c with
    | nil =>
      simp only [List.nil_append, List.cons.injEq, true_and] at hd
      refine ⟨hE hd.symm, by rw [hX]; simp⟩
    | cons c0 c1 =>
      exfalso
      simp only [List.cons_append, List.cons.injEq] at hd
      cases k with
      | nil => exact hk rfl
      | cons w k1 =>
        exact hno ⟨c1, w, k1 ++ post, by rw [hd.2]; simp, hkw w (List.mem_cons_self _ _)⟩

/-- C2 as stated fails: on the line `a: vault://kv/app@pw b: vault://kv/app@pw`
and a server that answers every path, `replaceFile` calls the resolver once,
with a path that runs from the first reference into the second, and replaces
one span; it does not call it twice with `kv/app`, `pw`, and the result is not
the line with each reference replaced. -/
theorem replaceFile_repeated_reference_counterexample :
    ConfigMapFromVault.replaceFile Char.isAlphanum anyPathVault twiceFile =
        ⟨.val ("a: s3cret".toList, none),
          [("kv/app@pw b: vault://kv/app".toList, "pw".toList)]⟩ ∧
      VaultReplaceInline.replaceFile Char.isAlphanum anyPathVault twiceFile =
        ⟨.val ("a: s3cret".toList, none),
          [("kv/app@pw b: vault://kv/app".toList, "pw".toList)]⟩ ∧
      (ConfigMapFromVault.replaceFile Char.isAlphanum anyPathVault twiceFile).calls ≠
        [("kv/app".toList, "pw".toList), ("kv/app".toList, "pw".toList)] ∧
      (ConfigMapFromVault.replaceFile Char.isAlphanum anyPathVault twiceFile).out ≠
        .val ("a: s3cret b: s3cret".toList, none) := by
  refine ⟨rfl, rfl, ?_, ?_⟩ <;> decide

/-- C2 amended: on a line (without newline) that holds the same reference
`vault://p@k` twice, the loop of `replaceFile` calls the resolver exactly once,
with the path and key of the single match the pattern has on the line. That
match covers both references: it starts at or before the first one and ends at
or after the second one. When the call succeeds the output line is the input
line with this one span replaced by the expansion of the returned value. -/
theorem scanLoop_repeated_reference (u : Char → Bool) (V : Vault)
    (line pre p k mid post output : Str)
    (hline : line = pre ++ vaultLit ++ p ++ '@' :: k ++ mid ++ vaultLit ++ p ++ '@' :: k ++ post)
    (hnl : ∀ c ∈ line, c ≠ '\n') (hp : p ≠ []) (hk : k ≠ [])
    (hkw : ∀ c ∈ k, isWord c = true) :
    ∃ m, findSubmatch line = some m ∧
      line = m.before ++ vaultLit ++ m.path ++ '@' :: m.key ++ m.after ∧
      m.before.length ≤ pre.length ∧ m.after.length ≤ post.length ∧
      (scanLoop u V [line] output).2 = [(m.path, m.key)] ∧
      ∀ secret, getSecret V m.path m.key = .val (secret, none) →
        scanLoop u V [line] output =
          (.finished (output ++ (m.before ++ expand u secret m ++ m.after) ++ ['\n']),
            [(m.path, m.key)]) := by
  obtain ⟨w, k1, hkcons⟩ : ∃ w k1, k = w :: k1 := by
    cases k with
    | nil => exact absurd rfl hk
    | cons w k1 => exact ⟨w, k1, rfl⟩
  have hw : isWord w = true := hkw w (by rw [hkcons]; exact List.mem_cons_self _ _)
  have href : HasReference line :=
    ⟨pre, p, w, k1 ++ mid ++ vaultLit ++ p ++ '@' :: k ++ post, hp, hw, by
      rw [hline, hkcons]; simp⟩
  cases hf : findSubmatch line with
  | none => exact absurd hf (findSubmatch_ne_none line hnl href)
  | some m =>
    obtain ⟨e, -, hkey, hno⟩ := findSubmatch_some hnl hf
    have hfirst := findSubmatch_first hnl hf pre
      (p ++ '@' :: k ++ mid ++ vaultLit ++ p ++ '@' :: k ++ post) (by rw [hline]; simp)
    have hlen := (after_length_le k post m.key m.after
      (pre ++ vaultLit ++ p ++ '@' :: k ++ mid ++ vaultLit ++ p)
      (m.before ++ vaultLit ++ m.path) hk hkw hkey hno (by
        have : line = (pre ++ vaultLit ++ p ++ '@' :: k ++ mid ++ vaultLit ++ p)
            ++ '@' :: (k ++ post) := by rw [hline]; simp
        rw [← this, ← e])).1
    refine ⟨m, rfl, by rw [e]; simp, hfirst, hlen, ?_, ?_⟩
    · cases hg : getSecret V m.path m.key with
      | panic => simp [scanLoop, hf, hg]
      | val r =>
        obtain ⟨secret, err⟩ := r
        cases err with
        | none => simp [scanLoop, hf, hg]
        | some e1 => simp [scanLoop, hf, hg]
    · intro secret hg
      simp [scanLoop, hf, hg, replaceAllString_some u line secret m hnl hf]

/-- Witness for the amended C2 on `twiceLine`. -/
theorem scanLoop_repeated_reference_witness :
    ∃ m, findSubmatch twiceLine = some m ∧
      twiceLine = m.before ++ vaultLit ++ m.path ++ '@' :: m.key ++ m.after ∧
      m.before.length ≤ "a: ".toList.length ∧ m.after.length ≤ ([] : Str).length ∧
      (scanLoop Char.isAlphanum anyPathVault [twiceLine] []).2 = [(m.path, m.key)] ∧
      ∀ secret, getSecret anyPathVault m.path m.key = .val (secret, none) →
        scanLoop Char.isAlphanum anyPathVault [twiceLine] [] =
          (.finished ([] ++ (m.before ++ expand Char.isAlphanum secret m ++ m.after) ++ ['\n']),
            [(m.path, m.key)]) :=
  scanLoop_repeated_reference Char.isAlphanum anyPathVault twiceLine "a: ".toList
    "kv/app".toList "pw".toList " b: ".toList [] [] (by decide) (by decide) (by decide)
    (by decide) (by decide)

/-! ### The loops of the replacement always end within their fuel -/

theorem cutDollar_some {t b a : Str} (h : cutDollar t = some (b, a)) : t = b ++ '$' :: a := by
  induction t generalizing b with
  | nil => simp [cutDollar] at h
  | cons c cs ih =>
    unfold cutDollar at h
    split at h
    · rename_i hc
      simp only [Option.some.injEq, Prod.mk.injEq] at h
      rw [← h.1, ← h.2, hc]; rfl
    · cases hrec : cutDollar cs with
      | none => rw [hrec] at h; simp at h
      | some ba =>
        obtain ⟨b1, a1⟩ := ba
        rw [hrec] at h
        simp only [Option.some.injEq, Prod.mk.injEq] at h
        obtain ⟨hb, ha⟩ := h
        subst hb; subst ha
        rw [ih hrec]; rfl

theorem cutDollar_none {t : Str} (h : cutDollar t = none) : '$' ∉ t := by
  induction t with
  | nil => simp
  | cons c cs ih =>
    unfold cutDollar at h
    split at h
    · simp at h
    · rename_i hc
      cases hrec : cutDollar cs with
      | none =>
        have := ih hrec
        simp only [List.mem_cons, not_or]
        exact ⟨fun e => hc e.symm, this⟩
      | some ba => rw [hrec] at h; simp at h

theorem extract_length {u : Char → Bool} {a name rest : Str} {num : Int}
    (h : extract u a = some (name, num, rest)) : rest.length ≤ a.length := by
  cases a with
  | nil => simp [extract] at h
  | cons c0 tl =>
    unfold extract at h
    dsimp only at h
    cases hb : (c0 == '{') with
    | true =>
      simp only [hb, if_true] at h
      split at h
      · exact absurd h (by simp)
      · split at h
        · rename_i rest1 hr
          simp only [Option.some.injEq, Prod.mk.injEq] at h
          have hl := (List.dropWhile_suffix (isNameRune u) (l := tl)).length_le
          rw [hr] at hl
          rw [← h.2.2]
          simp only [List.length_cons] at hl ⊢
          omega
        · exact absurd h (by simp)
    | false =>
      simp only [hb, Bool.false_eq_true, if_false] at h
      split at h
      · exact absurd h (by simp)
      · simp only [Option.some.injEq, Prod.mk.injEq] at h
        rw [← h.2.2]
        exact (List.dropWhile_suffix (isNameRune u)).length_le

theorem expandLoop_isSome (u : Char → Bool) (m : Submatch) (n : Nat) (dst template : Str)
    (h : template.length < n) : (expandLoop u m n dst template).isSome = true := by
  induction n generalizing dst template with
  | zero => omega
  | succ n ih =>
    unfold expandLoop
    cases hc : cutDollar template with
    | none => simp
    | some ba =>
      obtain ⟨b, a⟩ := ba
      have hlen : a.length < n := by
        have := congrArg List.length (cutDollar_some hc)
        simp at this
        omega
      simp only
      split
      · rename_i after1
        exact ih _ _ (by simp only [List.length_cons] at hlen; omega)
      · cases he : extract u a with
        | none => exact ih _ _ hlen
        | some r =>
          obtain ⟨name, num, rest⟩ := r
          have := extract_length he
          exact ih _ _ (by omega)

theorem expand_eq (u : Char → Bool) (template : Str) (m : Submatch) :
    expandLoop u m (template.length + 1) [] template = some (expand u template m) := by
  have := expandLoop_isSome u m (template.length + 1) [] template (by omega)
  cases h : expandLoop u m (template.length + 1) [] template with
  | none => rw [h] at this; simp at this
  | some r => simp [expand, h]

theorem expand_of_no_dollar (u : Char → Bool) (template : Str) (m : Submatch)
    (h : '$' ∉ template) : expand u template m = template := by
  have hc : cutDollar template = none := by
    cases hcut : cutDollar template with
    | none => rfl
    | some ba =>
      obtain ⟨b, a⟩ := ba
      exact absurd (by rw [cutDollar_some hcut]; simp) h
  simp [expand, expandLoop, hc]

theorem matchDots_length {s p k r : Str} (h : matchDots s = some (p, k, r)) :
    r.length < s.length := by
  induction s generalizing p with
  | nil => simp [matchDots] at h
  | cons c cs ih =>
    unfold matchDots at h
    cases hrec : (if isDot c = true then matchDots cs else none) with
    | some pkr =>
      obtain ⟨p2, k2, r2⟩ := pkr
      rw [hrec] at h
      simp only [Option.some.injEq, Prod.mk.injEq] at h
      obtain ⟨-, hk, hr⟩ := h
      subst hk; subst hr
      split at hrec
      · have := ih hrec
        simp only [List.length_cons]
        omega
      · simp at hrec
    | none =>
      rw [hrec] at h
      simp only at h
      split at h
      · cases hk : matchKey cs with
        | none => rw [hk] at h; simp at h
        | some kr =>
          obtain ⟨k2, r2⟩ := kr
          rw [hk] at h
          simp only [Option.some.injEq, Prod.mk.injEq] at h
          obtain ⟨-, -, hr⟩ := h
          subst hr
          have := congrArg List.length (matchKey_some hk).1
          simp only [List.length_append] at this
          simp only [List.length_cons]
          omega
      · simp at h

theorem matchHere_length {s p k r : Str} (h : matchHere s = some (p, k, r)) :
    r.length < s.length := by
  unfold matchHere at h
  cases hst : stripLit vaultLit s with
  | none => rw [hst] at h; simp at h
  | some t =>
    rw [hst] at h
    simp only at h
    rw [stripLit_eq_some] at hst
    cases t with
    | nil => simp [matchPath] at h
    | cons c cs =>
      by_cases hc : isDot c = true
      · simp only [matchPath, hc, if_true] at h
        cases hrec : matchDots cs with
        | none => rw [hrec] at h; simp at h
        | some pkr =>
          obtain ⟨p2, k2, r2⟩ := pkr
          rw [hrec] at h
          simp only [Option.some.injEq, Prod.mk.injEq] at h
          obtain ⟨-, -, hr⟩ := h
          subst hr
          have := matchDots_length hrec
          rw [hst]
          simp only [List.length_append, List.length_cons]
          omega
      · simp [matchPath, hc] at h

theorem findSubmatch_length {s : Str} {m : Submatch} (h : findSubmatch s = some m) :
    m.after.length < s.length := by
  induction s generalizing m with
  | nil => simp [findSubmatch] at h
  | cons c cs ih =>
    unfold findSubmatch at h
    cases hh : matchHere (c :: cs) with
    | some pkr =>
      obtain ⟨p, k, r⟩ := pkr
      rw [hh] at h
      simp only [Option.some.injEq] at h
      subst h
      exact matchHere_length hh
    | none =>
      rw [hh] at h
      simp only at h
      cases hf : findSubmatch cs with
      | none => rw [hf] at h; simp at h
      | some m2 =>
        rw [hf] at h
        simp only [Option.some.injEq] at h
        subst h
        have := ih hf
        simp only [List.length_cons]
        omega

theorem replaceAllLoop_isSome (repl : Submatch → Str) (n : Nat) (src : Str)
    (h : src.length < n) : (replaceAllLoop repl n src).isSome = true := by
  induction n generalizing src with
  | zero => omega
  | succ n ih =>
    unfold replaceAllLoop
    cases hf : findSubmatch src with
    | none => simp
    | some m =>
      have hlen := findSubmatch_length hf
      have := ih m.after (by omega)
      cases hr : replaceAllLoop repl n m.after with
      | none => rw [hr] at this; simp at this
      | some t => simp [hr]

theorem replaceAllString_eq (u : Char → Bool) (src repl : Str) :
    replaceAllLoop (expand u repl) (src.length + 1) src = some (replaceAllString u src repl) := by
  have := replaceAllLoop_isSome (expand u repl) (src.length + 1) src (by omega)
  cases h : replaceAllLoop (expand u repl) (src.length + 1) src with
  | none => rw [h] at this; simp at this
  | some r => simp [replaceAllString, h]

/-- On a line with one match and a secret without dollar sign the replacement
puts the secret itself in the place of the matched span. -/
theorem replaceAllString_of_no_dollar (u : Char → Bool) (line secret : Str) (m : Submatch)
    (hs : ∀ c ∈ line, c ≠ '\n') (h : findSubmatch line = some m) (hd : '$' ∉ secret) :
    replaceAllString u line secret = m.before ++ secret ++ m.after := by
  rw [replaceAllString_some u line secret m hs h, expand_of_no_dollar u secret m hd]

/-- The text the scan loop accumulates is a sequence of lines, each followed by
a newline: when it is not empty its last byte is the newline that the final
`output[:len(output)-1]` removes. -/
theorem scanLoop_finished (u : Char → Bool) (V : Vault) (lines : List Str) (output o : Str)
    (calls : List (Str × Str)) (h : scanLoop u V lines output = (.finished o, calls)) :
    ∃ ps : List Str, ps.length = lines.length ∧ o = output ++ withNewlines ps := by
  induction lines generalizing output calls with
  | nil =>
    simp only [scanLoop, Prod.mk.injEq, LoopEnd.finished.injEq] at h
    exact ⟨[], rfl, by simp [withNewlines, h.1]⟩
  | cons l ls ih =>
    unfold scanLoop at h
    cases hf : findSubmatch l with
    | none =>
      rw [hf] at h
      obtain ⟨ps, hlen, ho⟩ := ih _ _ h
      exact ⟨l :: ps, by simp [hlen], by rw [ho]; simp [withNewlines]⟩
    | some m =>
      rw [hf] at h
      simp only at h
      cases hg : getSecret V m.path m.key with
      | panic => rw [hg] at h; simp at h
      | val r =>
        obtain ⟨secret, err⟩ := r
        cases err with
        | some e => rw [hg] at h; simp at h
        | none =>
          rw [hg] at h
          simp only [Prod.mk.injEq] at h
          obtain ⟨ps, hlen, ho⟩ := ih _ _ (Prod.ext h.1 rfl)
          exact ⟨replaceAllString u l secret :: ps, by simp [hlen], by
            rw [ho]; simp [withNewlines]⟩

theorem withNewlines_getLast (ps : List Str) (h : ps ≠ []) :
    (withNewlines ps).getLast? = some '\n' := by
  induction ps with
  | nil => exact absurd rfl h
  | cons p rest ih =>
    cases rest with
    | nil => simp [withNewlines]
    | cons q qs =>
      have hne : withNewlines (q :: qs) ≠ [] := by simp [withNewlines]
      have e : withNewlines (p :: q :: qs) = (p ++ ['\n']) ++ withNewlines (q :: qs) := by
        simp [withNewlines]
      rw [e, List.getLast?_append_of_ne_nil _ hne]
      exact ih (by simp)

end GroupsSync
